import Mathlib

/-
Shallow embedding of the Whistle privacy-pool programs
(whistle-pool, whistle-verifier, whistle-merkle).

32-byte words (hashes, commitments, nullifiers, field elements) are
modelled abstractly as natural numbers.  The Poseidon two-to-one hash and
the alt_bn128 curve operations are external capabilities of the runtime,
so they appear as explicit parameters.  The Groth16 verifying functions
called by the pool (module groth16.rs) are not part of the given sources,
so each handler takes the outcome of its proof check as a parameter
(an arbitrary `Except WhistleError Bool`), which quantifies over every
possible behaviour of that module.

Handlers are embedded in an error monad that carries the partially
mutated account state at the point of failure
(`Except (WhistleError × Pool) Pool`): the carried state is what the
instruction had written before aborting, while the runtime discards all
writes of a failed instruction, which the `commitRun` / `*Step`
functions express.
-/

abbrev B32 : Type := Nat

/-- Error codes of the pool program (enum WhistleError in the source). -/
inductive WhistleError where
  | InvalidMerkleLevels
  | AmountTooSmall
  | InvalidWithdrawDenomination
  | TreeFull
  | NullifierAlreadyUsed
  | InvalidMerkleRoot
  | InvalidProof
  | FeeTooHigh
  | NullifierSetFull
  | ECOperationFailed
  | InsufficientBalance
  | Groth16AdditionFailed
  | Groth16MultiplicationFailed
  | Groth16PairingFailed
  | InsufficientVaultBalance
  | ArithmeticOverflow
  deriving DecidableEq

def DENOM_001_SOL : Nat := 10000000
def DENOM_005_SOL : Nat := 50000000
def DENOM_01_SOL : Nat := 100000000
def DENOM_1_SOL : Nat := 1000000000
def DENOM_10_SOL : Nat := 10000000000
def DENOM_100_SOL : Nat := 100000000000
def MIN_DEPOSIT : Nat := 10000000

def U64_MOD : Nat := 18446744073709551616

/-- u64::checked_add: fails on wrap-around. -/
def checkedAddU64 (a b : Nat) : Except WhistleError Nat :=
  if a + b < U64_MOD then .ok (a + b) else .error .ArithmeticOverflow

/-- u64::checked_sub: fails on underflow. -/
def checkedSubU64 (a b : Nat) : Except WhistleError Nat :=
  if b ≤ a then .ok (a - b) else .error .ArithmeticOverflow

/-! Merkle tree of the pool program: a complete binary heap array of
16384 nodes stored in one account. -/

def TREE_NODES : Nat := 16384

structure MerkleTree where
  nodes : Nat → B32

/-- A freshly initialised (zeroed) tree account. -/
def zeroTree : MerkleTree := ⟨fun _ => 0⟩

def writeNode (t : MerkleTree) (i : Nat) (v : B32) : MerkleTree :=
  ⟨fun j => if j = i then v else t.nodes j⟩

/-- Child read with the bounds check of the source
(out of range reads as all-zero). -/
def readChild (t : MerkleTree) (i : Nat) : B32 :=
  if i < TREE_NODES then t.nodes i else 0

/-- Fuel-driven form of the while loop of insert_leaf; the fuel only
makes the recursion structural and never expires on the calls made
(updChainF_le below), so updChain below has exactly the loop
semantics: recompute each ancestor of `cur` up to the root. -/
def updChainF (hash : B32 → B32 → B32) : Nat → MerkleTree → Nat → MerkleTree
  | _, t, 0 => t
  | 0, t, _ + 1 => t
  | fuel + 1, t, cur + 1 =>
      let parent := cur / 2
      updChainF hash fuel
        (writeNode t parent
          (hash (readChild t (2 * parent + 1)) (readChild t (2 * parent + 2))))
        parent

/-- The while loop of insert_leaf. -/
def updChain (hash : B32 → B32 → B32) (t : MerkleTree) (cur : Nat) :
    MerkleTree :=
  updChainF hash cur t cur

/-- MerkleTree::insert_leaf of the source: write the leaf at
(2^levels - 1) + index and recompute the ancestor chain, with levels
clamped to 13. -/
def MerkleTree.insert_leaf (hash : B32 → B32 → B32) (t : MerkleTree)
    (leaf : B32) (index : Nat) (levels : Nat) : MerkleTree :=
  let lv := min levels 13
  let leafPos := (2 ^ lv - 1) + index
  if leafPos < TREE_NODES then updChain hash (writeNode t leafPos leaf) leafPos
  else t

/-- MerkleTree::get_root of the source: the heap root slot. -/
def MerkleTree.get_root (t : MerkleTree) (_levels : Nat) : B32 := t.nodes 0

/-! Root history: ring buffer of 100 roots plus a write cursor. -/

structure RootsHistory where
  current_index : Nat
  roots : List B32

def freshRoots : RootsHistory := ⟨0, List.replicate 100 0⟩

/-- RootsHistory::contains of the source: linear scan over all slots. -/
def RootsHistory.contains (h : RootsHistory) (r : B32) : Bool :=
  decide (r ∈ h.roots)

/-- The inlined history update of the handlers: write at the cursor and
advance it modulo 100. -/
def RootsHistory.push (h : RootsHistory) (r : B32) : RootsHistory :=
  ⟨(h.current_index + 1) % 100, h.roots.set h.current_index r⟩

/-- The history after a sequence of pushes into a fresh account. -/
def histAfter (rs : List B32) : RootsHistory :=
  rs.foldl RootsHistory.push freshRoots

/-- The root-validity check of unshield and private_transfer:
equal to the current root, or present in the history. -/
def rootValidFor (cur : B32) (h : RootsHistory) (r : B32) : Bool :=
  (r == cur) || h.contains r

/-! Nullifier set: fixed array of 4096 slots plus a count. -/

def NULLIFIER_CAPACITY : Nat := 4096

structure NullifierSet where
  count : Nat
  nullifiers : Nat → B32

def freshNulls : NullifierSet := ⟨0, fun _ => 0⟩

/-- NullifierSet::is_spent of the source: scan entries 0..count
(with the in-range guard of the source). -/
def NullifierSet.is_spent (s : NullifierSet) (x : B32) : Bool :=
  decide (∃ i, i < s.count ∧ i < NULLIFIER_CAPACITY ∧ s.nullifiers i = x)

/-- NullifierSet::mark_spent of the source: append at position count,
hard failure when the capacity is reached. -/
def NullifierSet.mark_spent (s : NullifierSet) (x : B32) :
    Except WhistleError NullifierSet :=
  if s.count < NULLIFIER_CAPACITY then
    .ok ⟨s.count + 1, fun j => if j = s.count then x else s.nullifiers j⟩
  else .error .NullifierSetFull

/-- Entries 0..count are pairwise distinct (the nullifier-uniqueness
invariant of the spec). -/
def pairwiseDistinct (s : NullifierSet) : Prop :=
  ∀ i < s.count, ∀ j < s.count, i ≠ j → s.nullifiers i ≠ s.nullifiers j

/-! Pool state machine. -/

structure PoolState where
  merkle_levels : Nat
  next_index : Nat
  current_root : B32
  total_deposits : Nat
  total_shielded : Nat
  deriving DecidableEq

/-- The four jointly consistent structures of one deployed pool. -/
structure Pool where
  pool : PoolState
  tree : MerkleTree
  roots : RootsHistory
  nulls : NullifierSet

/-- The initialize instruction (named initialize in the source):
the depth must lie in 7..13; on success the root is the all-zero
sentinel and next_index is 0. -/
def initialize_pool (merkle_levels : Nat) : Except WhistleError PoolState :=
  if 7 ≤ merkle_levels ∧ merkle_levels ≤ 13 then
    .ok ⟨merkle_levels, 0, 0, 0, 0⟩
  else .error .InvalidMerkleLevels

/-- The shield instruction.  The lamport transfer into the vault is an
external settlement effect and does not touch the four structures. -/
def shieldRun (hash : B32 → B32 → B32) (s : Pool) (commitment : B32)
    (amount : Nat) : Except (WhistleError × Pool) Pool :=
  if ¬ MIN_DEPOSIT ≤ amount then .error (.AmountTooSmall, s) else
  if ¬ s.pool.next_index < 2 ^ s.pool.merkle_levels then .error (.TreeFull, s)
  else
    let tree1 := s.tree.insert_leaf hash commitment s.pool.next_index
      s.pool.merkle_levels
    let root1 := tree1.get_root s.pool.merkle_levels
    let s1 : Pool := ⟨⟨s.pool.merkle_levels, s.pool.next_index, root1,
      s.pool.total_deposits, s.pool.total_shielded⟩, tree1, s.roots, s.nulls⟩
    match checkedAddU64 s.pool.next_index 1 with
    | .error e => .error (e, s1)
    | .ok ni =>
      let s2 : Pool := ⟨⟨s.pool.merkle_levels, ni, root1,
        s.pool.total_deposits, s.pool.total_shielded⟩, tree1, s.roots, s.nulls⟩
      match checkedAddU64 s.pool.total_deposits amount with
      | .error e => .error (e, s2)
      | .ok td =>
        let s3 : Pool := ⟨⟨s.pool.merkle_levels, ni, root1, td,
          s.pool.total_shielded⟩, tree1, s.roots, s.nulls⟩
        match checkedAddU64 s.pool.total_shielded amount with
        | .error e => .error (e, s3)
        | .ok ts =>
          .ok ⟨⟨s.pool.merkle_levels, ni, root1, td, ts⟩, tree1,
            s.roots.push root1, s.nulls⟩

/-- The denomination check of unshield: the withdrawal amount must be
one of the six fixed public denominations. -/
def denomOk (wa : Nat) : Prop :=
  wa = DENOM_001_SOL ∨ wa = DENOM_005_SOL ∨ wa = DENOM_01_SOL ∨
  wa = DENOM_1_SOL ∨ wa = DENOM_10_SOL ∨ wa = DENOM_100_SOL

instance (wa : Nat) : Decidable (denomOk wa) := by
  unfold denomOk
  infer_instance

/-- The fee check of unshield: relayer fee at most a tenth of the
withdrawal amount. -/
def feeOk (wa rf : Nat) : Prop := rf ≤ wa / 10

instance (wa rf : Nat) : Decidable (feeOk wa rf) := by
  unfold feeOk
  infer_instance

/-- The change branch of unshield: when the change commitment is
non-zero, insert it as a fresh leaf, recompute the root, bump
next_index, and push the new root onto the history. -/
def unshieldChange (hash : B32 → B32 → B32) (s : Pool)
    (change_commitment : B32) : Except (WhistleError × Pool) Pool :=
  if change_commitment ≠ 0 then
    if ¬ s.pool.next_index < 2 ^ s.pool.merkle_levels then
      .error (.TreeFull, s)
    else
      let tree1 := s.tree.insert_leaf hash change_commitment
        s.pool.next_index s.pool.merkle_levels
      let root1 := tree1.get_root s.pool.merkle_levels
      let sB : Pool := ⟨⟨s.pool.merkle_levels, s.pool.next_index, root1,
        s.pool.total_deposits, s.pool.total_shielded⟩, tree1, s.roots,
        s.nulls⟩
      match checkedAddU64 s.pool.next_index 1 with
      | .error e => .error (e, sB)
      | .ok ni =>
        .ok ⟨⟨s.pool.merkle_levels, ni, root1, s.pool.total_deposits,
          s.pool.total_shielded⟩, tree1, s.roots.push root1, s.nulls⟩
  else .ok s

/-- The unshield instruction.  `proofRes` is the outcome of
verify_unshield_proof (module groth16.rs, not among the given sources),
`vaultBalance` the vault lamports.  The recipient key only feeds the
proof binding, and the lamport transfers are external settlement
effects. -/
def unshieldRun (hash : B32 → B32 → B32) (s : Pool)
    (proofRes : Except WhistleError Bool)
    (nullifier_hash _recipient : B32) (withdrawal_amount relayer_fee : Nat)
    (merkle_root change_commitment : B32) (vaultBalance : Nat) :
    Except (WhistleError × Pool) Pool :=
  if ¬ denomOk withdrawal_amount then
    .error (.InvalidWithdrawDenomination, s) else
  if ¬ feeOk withdrawal_amount relayer_fee then .error (.FeeTooHigh, s) else
  if s.nulls.is_spent nullifier_hash then .error (.NullifierAlreadyUsed, s) else
  if ¬ rootValidFor s.pool.current_root s.roots merkle_root = true then
    .error (.InvalidMerkleRoot, s) else
  match proofRes with
  | .error e => .error (e, s)
  | .ok proofValid =>
    if ¬ proofValid = true then .error (.InvalidProof, s) else
    match s.nulls.mark_spent nullifier_hash with
    | .error e => .error (e, s)
    | .ok ns1 =>
      match unshieldChange hash ⟨s.pool, s.tree, s.roots, ns1⟩
          change_commitment with
      | .error p => .error p
      | .ok sC =>
        if ¬ withdrawal_amount ≤ vaultBalance then
          .error (.InsufficientVaultBalance, sC) else
        match checkedSubU64 withdrawal_amount relayer_fee with
        | .error e => .error (e, sC)
        | .ok _net =>
          match checkedSubU64 sC.pool.total_shielded withdrawal_amount with
          | .error e => .error (e, sC)
          | .ok ts2 =>
            .ok ⟨⟨sC.pool.merkle_levels, sC.pool.next_index,
              sC.pool.current_root, sC.pool.total_deposits, ts2⟩,
              sC.tree, sC.roots, sC.nulls⟩

/-- One iteration of the nullifier-marking loop of private_transfer:
mark the hash spent when it is non-zero. -/
def markIfNonzero (s : Pool) (n : B32) : Except (WhistleError × Pool) Pool :=
  if n ≠ 0 then
    match s.nulls.mark_spent n with
    | .error e => .error (e, s)
    | .ok ns => .ok ⟨s.pool, s.tree, s.roots, ns⟩
  else .ok s

/-- One iteration of the output-insertion loop of private_transfer:
insert the commitment as a fresh leaf when it is non-zero (the root is
recomputed only after the loop). -/
def insertOutput (hash : B32 → B32 → B32) (s : Pool) (c : B32) :
    Except (WhistleError × Pool) Pool :=
  if c ≠ 0 then
    if ¬ s.pool.next_index < 2 ^ s.pool.merkle_levels then
      .error (.TreeFull, s)
    else
      let tree1 := s.tree.insert_leaf hash c s.pool.next_index
        s.pool.merkle_levels
      match checkedAddU64 s.pool.next_index 1 with
      | .error e => .error (e, ⟨s.pool, tree1, s.roots, s.nulls⟩)
      | .ok ni =>
        .ok ⟨⟨s.pool.merkle_levels, ni, s.pool.current_root,
          s.pool.total_deposits, s.pool.total_shielded⟩,
          tree1, s.roots, s.nulls⟩
  else .ok s

/-- The private_transfer instruction.  `proofRes` is the outcome of
verify_transfer_proof (module groth16.rs, not among the given sources).
The two-element input and output arrays of the source are unrolled. -/
def transferRun (hash : B32 → B32 → B32) (s : Pool)
    (proofRes : Except WhistleError Bool)
    (n1 n2 c1 c2 merkle_root : B32) : Except (WhistleError × Pool) Pool :=
  if ¬ rootValidFor s.pool.current_root s.roots merkle_root = true then
    .error (.InvalidMerkleRoot, s) else
  if n1 ≠ 0 ∧ s.nulls.is_spent n1 = true then .error (.NullifierAlreadyUsed, s)
  else
  if n2 ≠ 0 ∧ s.nulls.is_spent n2 = true then .error (.NullifierAlreadyUsed, s)
  else
  match proofRes with
  | .error e => .error (e, s)
  | .ok proofValid =>
    if ¬ proofValid = true then .error (.InvalidProof, s) else
    match markIfNonzero s n1 with
    | .error p => .error p
    | .ok sA =>
      match markIfNonzero sA n2 with
      | .error p => .error p
      | .ok sB =>
        match insertOutput hash sB c1 with
        | .error p => .error p
        | .ok sC =>
          match insertOutput hash sC c2 with
          | .error p => .error p
          | .ok sD =>
            let root1 := sD.tree.get_root sD.pool.merkle_levels
            .ok ⟨⟨sD.pool.merkle_levels, sD.pool.next_index, root1,
              sD.pool.total_deposits, sD.pool.total_shielded⟩,
              sD.tree, sD.roots.push root1, sD.nulls⟩

/-- Committed state of an instruction: the runtime discards every
account write of a failed instruction, so on error the pre-state
persists. -/
def commitRun (s : Pool) : Except (WhistleError × Pool) Pool → Pool
  | .ok s1 => s1
  | .error _ => s

def isOkRun : Except (WhistleError × Pool) Pool → Bool
  | .ok _ => true
  | .error _ => false

def shieldStep (hash : B32 → B32 → B32) (s : Pool) (commitment : B32)
    (amount : Nat) : Pool :=
  commitRun s (shieldRun hash s commitment amount)

def unshieldStep (hash : B32 → B32 → B32) (s : Pool)
    (proofRes : Except WhistleError Bool) (nh rec : B32) (wa rf : Nat)
    (mr cc : B32) (vb : Nat) : Pool :=
  commitRun s (unshieldRun hash s proofRes nh rec wa rf mr cc vb)

def transferStep (hash : B32 → B32 → B32) (s : Pool)
    (proofRes : Except WhistleError Bool) (n1 n2 c1 c2 mr : B32) : Pool :=
  commitRun s (transferRun hash s proofRes n1 n2 c1 c2 mr)

/-! Sequential insertion and the two rebuild-from-scratch readings. -/

/-- Insert leaves 0..n-1 at successive indices into a fresh tree. -/
def insertSeq (hash : B32 → B32 → B32) (leaves : Nat → B32) (levels : Nat) :
    Nat → MerkleTree
  | 0 => zeroTree
  | n + 1 => (insertSeq hash leaves levels n).insert_leaf hash (leaves n) n
      levels

/-- Rebuild reading of the claim as stated: absent leaves are all-zero
and every internal node is the hash of its two children.  Arguments:
height of the subtree, offset of the subtree within its level. -/
def rebuildFull (hash : B32 → B32 → B32) (leaves : Nat → B32) (n : Nat) :
    Nat → Nat → B32
  | 0, t => if t < n then leaves t else 0
  | h + 1, t =>
      hash (rebuildFull hash leaves n h (2 * t))
        (rebuildFull hash leaves n h (2 * t + 1))

/-- Rebuild reading matching the storage scheme of the source: a subtree
holding no inserted leaf reads as all-zero, every other internal node is
the hash of its two children. -/
def rebuildZero (hash : B32 → B32 → B32) (leaves : Nat → B32) (n : Nat) :
    Nat → Nat → B32
  | 0, t => if t < n then leaves t else 0
  | h + 1, t =>
      if n ≤ t * 2 ^ (h + 1) then 0
      else hash (rebuildZero hash leaves n h (2 * t))
        (rebuildZero hash leaves n h (2 * t + 1))

/-- Level of a heap position (root has level 0). -/
def levelOf (q : Nat) : Nat := Nat.log2 (q + 1)

/-- Offset of a heap position within its level. -/
def offOf (q : Nat) : Nat := q + 1 - 2 ^ levelOf q

/-- Intended value of every heap slot after n sequential insertions into
a depth-L tree. -/
def treeModel (hash : B32 → B32 → B32) (leaves : Nat → B32) (L n q : Nat) :
    B32 :=
  if levelOf q ≤ L then rebuildZero hash leaves n (L - levelOf q) (offOf q)
  else 0

/-- Heap position of the level-j ancestor of leaf n in a depth-L tree. -/
def aPos (L n j : Nat) : Nat := 2 ^ j - 1 + n / 2 ^ (L - j)

/-- Intermediate slot assignment while the update chain of the insertion
of leaf n has processed all ancestors at levels j..L. -/
def midModel (hash : B32 → B32 → B32) (leaves : Nat → B32) (L n j q : Nat) :
    B32 :=
  if ∃ i ≤ L, j ≤ i ∧ q = aPos L n i then treeModel hash leaves L (n + 1) q
  else treeModel hash leaves L n q

/-! The whistle-verifier program. -/

/-- A G1 point as its two 32-byte coordinate words. -/
structure G1 where
  x : Nat
  y : Nat
  deriving DecidableEq

/-- A G2 point, opaque to the verifier logic. -/
abbrev G2 : Type := Nat

/-- The alt_bn128 syscall capability: scalar multiplication, point
addition, and the batched pairing check (returning the 32-byte word the
syscall produces: 1 exactly when the pairing product is the
multiplicative identity). -/
structure AltBn128 where
  mul : G1 → Nat → Except Unit G1
  add : G1 → G1 → Except Unit G1
  pairing : List (G1 × G2) → Except Unit Nat

inductive VerifierError where
  | InvalidPublicInputCount
  | InvalidVerificationKey
  | ProofVerificationFailed
  | PairingFailed
  | ScalarMulFailed
  | PointAdditionFailed
  deriving DecidableEq

structure VerificationKey where
  alpha_g1 : G1
  beta_g2 : G2
  gamma_g2 : G2
  delta_g2 : G2
  ic : List G1

/-- The BN254 base-field modulus constant of the source. -/
def BN254_P : Nat :=
  21888242871839275222246405745257275088696311157297823662689037894645226208583

def BYTES32_MOD : Nat := 2 ^ 256

/-- field_sub of the source: 32-byte big-endian subtraction with borrow,
i.e. (a - b) modulo 2^256. -/
def field_sub (a b : Nat) : Nat :=
  (BYTES32_MOD + a - b % BYTES32_MOD) % BYTES32_MOD

/-- negate_g1_point of the source: replace y by p - y via field_sub. -/
def negate_g1_point (pt : G1) : G1 := ⟨pt.x, field_sub BN254_P pt.y⟩

/-- One iteration of the compute_linear_combination loop: multiply
IC[idx+1] by the public input and add the product to the accumulator,
mapping each capability failure to its error code. -/
def icStep (ops : AltBn128) (ic : List G1) (idx : Nat) (acc : G1)
    (input : Nat) : Except VerifierError G1 :=
  match ops.mul (ic.getD (idx + 1) ⟨0, 0⟩) input with
  | .error _ => .error .ScalarMulFailed
  | .ok product =>
    match ops.add acc product with
    | .error _ => .error .PointAdditionFailed
    | .ok sum => .ok sum

/-- The loop of compute_linear_combination: running G1 accumulator,
one scalar multiplication and one addition per public input. -/
def linCombAux (ops : AltBn128) (ic : List G1) :
    Nat → G1 → List Nat → Except VerifierError G1
  | _, acc, [] => .ok acc
  | i, acc, input :: rest =>
    match icStep ops ic i acc input with
    | .error e => .error e
    | .ok sum => linCombAux ops ic (i + 1) sum rest

/-- compute_linear_combination of the source:
vk_x = IC[0] + sum over i of public_input[i] * IC[i+1]. -/
def compute_linear_combination (ops : AltBn128) (ic : List G1)
    (public_inputs : List Nat) : Except VerifierError G1 :=
  linCombAux ops ic 0 (ic.getD 0 ⟨0, 0⟩) public_inputs

/-- verify_groth16_proof of the source. -/
def verify_groth16_proof (ops : AltBn128) (proof_a : G1) (proof_b : G2)
    (proof_c : G1) (public_inputs : List Nat) (vk : VerificationKey) :
    Except VerifierError Bool :=
  if vk.ic.length = public_inputs.length + 1 then
    match compute_linear_combination ops vk.ic public_inputs with
    | .error e => .error e
    | .ok vk_x =>
      let neg_a := negate_g1_point proof_a
      match ops.pairing [(neg_a, proof_b), (vk.alpha_g1, vk.beta_g2),
          (vk_x, vk.gamma_g2), (proof_c, vk.delta_g2)] with
      | .error _ => .error .PairingFailed
      | .ok r => .ok (r == 1)
  else .error .InvalidVerificationKey

/-- Modelled from the spec: the linear combination
vk_x = IC[0] + Σ public_input[i] * IC[i+1], written as a monadic fold of
the scalar-multiply-then-add step over the input indices. -/
def specVkX (ops : AltBn128) (ic : List G1) (public_inputs : List Nat) :
    Except VerifierError G1 :=
  (List.range public_inputs.length).foldlM
    (fun acc i => icStep ops ic i acc (public_inputs.getD i 0))
    (ic.getD 0 ⟨0, 0⟩)

/-- Modelled from the spec: reject on a public-input count mismatch,
build vk_x, negate A, evaluate the four-way pairing product
e(-A, B) * e(alpha, beta) * e(vk_x, gamma) * e(C, delta), and accept
exactly when the product is the multiplicative identity. -/
def groth16SpecCheck (ops : AltBn128) (proof_a : G1) (proof_b : G2)
    (proof_c : G1) (public_inputs : List Nat) (vk : VerificationKey) :
    Except VerifierError Bool :=
  if vk.ic.length = public_inputs.length + 1 then
    match specVkX ops vk.ic public_inputs with
    | .error e => .error e
    | .ok vk_x =>
      match ops.pairing [(negate_g1_point proof_a, proof_b),
          (vk.alpha_g1, vk.beta_g2), (vk_x, vk.gamma_g2),
          (proof_c, vk.delta_g2)] with
      | .error _ => .error .PairingFailed
      | .ok r => .ok (r == 1)
  else .error .InvalidVerificationKey

/-! The whistle-merkle program. -/

/-- The loop of compute_merkle_root; a none result is the out-of-bounds
panic on path_indices[i]. -/
def merkleRootAux (hash : B32 → B32 → B32) (path_indices : List Nat) :
    Nat → B32 → List B32 → Option B32
  | _, cur, [] => some cur
  | i, cur, e :: rest =>
    match path_indices.get? i with
    | none => none
    | some b =>
      merkleRootAux hash path_indices (i + 1)
        (if b = 0 then hash cur e else hash e cur) rest

/-- compute_merkle_root of the whistle-merkle source. -/
def compute_merkle_root (hash : B32 → B32 → B32) (leaf : B32)
    (path_elements : List B32) (path_indices : List Nat) : Option B32 :=
  merkleRootAux hash path_indices 0 leaf path_elements

/-- verify_merkle_proof of the whistle-merkle source. -/
def verify_merkle_proof (hash : B32 → B32 → B32) (leaf : B32)
    (path_elements : List B32) (path_indices : List Nat) (root : B32) :
    Option Bool :=
  (compute_merkle_root hash leaf path_elements path_indices).map
    (fun c => c == root)

/-! Concrete instances used by witnesses and counterexamples. -/

/-- A sample two-to-one hash with hash 0 0 different from 0. -/
def h0 : B32 → B32 → B32 := fun a b => a + b + 1

/-- A freshly initialised pool of depth 7. -/
def initPool : Pool := ⟨⟨7, 0, 0, 0, 0⟩, zeroTree, freshRoots, freshNulls⟩

/-- A pool of depth 7 with enough shielded balance to unshield. -/
def fundedPool : Pool :=
  ⟨⟨7, 0, 0, DENOM_1_SOL, DENOM_1_SOL⟩, zeroTree, freshRoots, freshNulls⟩

/-- A pool of depth 7 whose tree already holds 2^7 leaves. -/
def fullPool : Pool := ⟨⟨7, 128, 0, 0, 0⟩, zeroTree, freshRoots, freshNulls⟩

/-- A nullifier set at capacity. -/
def cappedNulls : NullifierSet := ⟨NULLIFIER_CAPACITY, fun _ => 0⟩

/-- Sample curve operations for witnesses. -/
def opsId : AltBn128 := ⟨fun p _ => .ok p, fun p _ => .ok p, fun _ => .ok 1⟩

/-- A verification key with an empty IC vector. -/
def vkEmpty : VerificationKey := ⟨⟨0, 0⟩, 0, 0, 0, []⟩

/-- A verification key with a two-point IC vector. -/
def vkTwo : VerificationKey := ⟨⟨1, 2⟩, 3, 4, 5, [⟨6, 7⟩, ⟨8, 9⟩]⟩

/-! Helper lemmas. -/

theorem updChainF_le (hash : B32 → B32 → B32) :
    ∀ (c f1 f2 : Nat) (t : MerkleTree), c ≤ f1 → c ≤ f2 →
      updChainF hash f1 t c = updChainF hash f2 t c := by
  intro c
  induction c using Nat.strong_induction_on with
  | _ c ih =>
    intro f1 f2 t h1 h2
    match c, f1, f2 with
    | 0, f1, f2 => cases f1 <;> cases f2 <;> rfl
    | c + 1, g1 + 1, g2 + 1 =>
      simp only [updChainF]
      exact ih (c / 2) (by omega) g1 g2 _ (by omega) (by omega)

theorem updChain_zero (hash : B32 → B32 → B32) (t : MerkleTree) :
    updChain hash t 0 = t := rfl

theorem updChain_succ (hash : B32 → B32 → B32) (t : MerkleTree) (c : Nat) :
    updChain hash t (c + 1) =
      updChain hash
        (writeNode t (c / 2)
          (hash (readChild t (2 * (c / 2) + 1)) (readChild t (2 * (c / 2) + 2))))
        (c / 2) := by
  unfold updChain
  simp only [updChainF]
  exact updChainF_le hash (c / 2) c (c / 2) _ (by omega) (by omega)

theorem errPairEq {e1 e2 : WhistleError} {s1 s2 : Pool}
    (h : (Except.error (e1, s1) : Except (WhistleError × Pool) Pool) =
      .error (e2, s2)) : e1 = e2 ∧ s1 = s2 := by
  injection h with h2
  injection h2 with ha hb
  exact ⟨ha, hb⟩

theorem checkedAddU64_err {a b : Nat} {e : WhistleError}
    (h : checkedAddU64 a b = .error e) : e = .ArithmeticOverflow := by
  unfold checkedAddU64 at h
  split at h
  · exact absurd h (by simp)
  · injection h with h2
    exact h2.symm

theorem checkedSubU64_err {a b : Nat} {e : WhistleError}
    (h : checkedSubU64 a b = .error e) : e = .ArithmeticOverflow := by
  unfold checkedSubU64 at h
  split at h
  · exact absurd h (by simp)
  · injection h with h2
    exact h2.symm

theorem mark_spent_err {s : NullifierSet} {x : B32} {e : WhistleError}
    (h : s.mark_spent x = .error e) : e = .NullifierSetFull := by
  unfold NullifierSet.mark_spent at h
  split at h
  · exact absurd h (by simp)
  · injection h with h2
    exact h2.symm

theorem markIfNonzero_err {s : Pool} {n : B32} {e : WhistleError} {s1 : Pool}
    (h : markIfNonzero s n = .error (e, s1)) : e = .NullifierSetFull := by
  unfold markIfNonzero at h
  split at h
  · cases hm : s.nulls.mark_spent n with
    | error e0 =>
      rw [hm] at h
      obtain ⟨he, _⟩ := errPairEq h
      exact he ▸ mark_spent_err hm
    | ok ns =>
      rw [hm] at h
      exact absurd h (by simp)
  · exact absurd h (by simp)

theorem insertOutput_err {hash : B32 → B32 → B32} {s : Pool} {c : B32}
    {e : WhistleError} {s1 : Pool}
    (h : insertOutput hash s c = .error (e, s1)) :
    e = .TreeFull ∨ e = .ArithmeticOverflow := by
  unfold insertOutput at h
  split at h
  · split at h
    · obtain ⟨he, _⟩ := errPairEq h
      exact Or.inl he.symm
    · split at h
      · next e0 heq =>
        obtain ⟨he, _⟩ := errPairEq h
        exact Or.inr (he ▸ checkedAddU64_err heq)
      · exact absurd h (by simp)
  · exact absurd h (by simp)

theorem unshieldChange_err {hash : B32 → B32 → B32} {s : Pool} {cc : B32}
    {e : WhistleError} {s1 : Pool}
    (h : unshieldChange hash s cc = .error (e, s1)) :
    e = .TreeFull ∨ e = .ArithmeticOverflow := by
  unfold unshieldChange at h
  split at h
  · split at h
    · obtain ⟨he, _⟩ := errPairEq h
      exact Or.inl he.symm
    · split at h
      · next e0 heq =>
        obtain ⟨he, _⟩ := errPairEq h
        exact Or.inr (he ▸ checkedAddU64_err heq)
      · exact absurd h (by simp)
  · exact absurd h (by simp)

theorem merkleRootAux_isSome (hash : B32 → B32 → B32) (pi : List Nat) :
    ∀ (pe : List B32) (i : Nat) (cur : B32), i + pe.length ≤ pi.length →
      (merkleRootAux hash pi i cur pe).isSome = true := by
  intro pe
  induction pe with
  | nil =>
    intro i cur _
    simp [merkleRootAux]
  | cons e rest ih =>
    intro i cur h
    simp only [List.length_cons] at h
    cases hg : pi.get? i with
    | none =>
      have := List.get?_eq_none.mp hg
      omega
    | some b =>
      simp only [merkleRootAux, hg]
      exact ih (i + 1) _ (by omega)

/-- Claim C9: initialize succeeds exactly when the tree depth lies in
the bounded range 7..13 (rejecting every other depth with no state
created), and on success the current root is the all-zero sentinel and
next_index is 0. -/
theorem C9_init_range :
    ∀ d : Nat,
      ((∃ p, initialize_pool d = .ok p) ↔ 7 ≤ d ∧ d ≤ 13) ∧
      (∀ p, initialize_pool d = .ok p →
        p.merkle_levels = d ∧ p.next_index = 0 ∧ p.current_root = 0) ∧
      (¬ (7 ≤ d ∧ d ≤ 13) → initialize_pool d = .error .InvalidMerkleLevels) := by
  intro d
  by_cases hd : 7 ≤ d ∧ d ≤ 13
  · refine ⟨⟨fun _ => hd,
      fun _ => ⟨⟨d, 0, 0, 0, 0⟩, by simp [initialize_pool, hd]⟩⟩, ?_, ?_⟩
    · intro p hp
      simp only [initialize_pool, if_pos hd] at hp
      injection hp with h2
      rw [← h2]
      exact ⟨rfl, rfl, rfl⟩
    · intro h
      exact absurd hd h
  · refine ⟨⟨?_, fun h => absurd h hd⟩, ?_, ?_⟩
    · rintro ⟨p, hp⟩
      simp [initialize_pool, hd] at hp
    · intro p hp
      simp [initialize_pool, hd] at hp
    · intro _
      simp [initialize_pool, hd]

/-- Witness for C9 at depths 10 (accepted) and 20 (rejected). -/
theorem C9_witness :
    (∃ p, initialize_pool 10 = .ok p) ∧
    initialize_pool 20 = .error .InvalidMerkleLevels :=
  ⟨(C9_init_range 10).1.mpr (by decide), (C9_init_range 20).2.2 (by decide)⟩

/-- Claim C8: the shield call that would insert the 2^depth-th leaf
fails with TreeFull leaving the state untouched, and mark_spent on a
nullifier set whose count equals the capacity fails with
NullifierSetFull. -/
theorem C8_capacity_limits :
    (∀ (hash : B32 → B32 → B32) (s : Pool) (c : B32) (a : Nat),
      MIN_DEPOSIT ≤ a → s.pool.next_index = 2 ^ s.pool.merkle_levels →
      shieldRun hash s c a = .error (.TreeFull, s)) ∧
    (∀ (ns : NullifierSet) (x : B32), ns.count = NULLIFIER_CAPACITY →
      ns.mark_spent x = .error .NullifierSetFull) := by
  constructor
  · intro hash s c a ha hn
    simp only [shieldRun]
    rw [if_neg (not_not_intro ha), if_pos (by simp [hn])]
  · intro ns x hn
    simp only [NullifierSet.mark_spent]
    rw [if_neg (by simp [hn])]

/-- Witness for C8: a depth-7 pool holding 128 leaves rejects a shield,
and a nullifier set at capacity rejects a mark. -/
theorem C8_witness :
    shieldRun h0 fullPool 3 MIN_DEPOSIT = .error (.TreeFull, fullPool) ∧
    cappedNulls.mark_spent 7 = .error .NullifierSetFull :=
  ⟨C8_capacity_limits.1 h0 fullPool 3 MIN_DEPOSIT (by decide) (by decide),
   C8_capacity_limits.2 cappedNulls 7 (by decide)⟩

/-- Claim C10: compute_merkle_root is total whenever path_indices is at
least as long as path_elements, and the out-of-bounds branch is
reachable when it is shorter. -/
theorem C10_merkle_totality :
    (∀ (hash : B32 → B32 → B32) (leaf : B32) (pe : List B32) (pi : List Nat),
      pe.length ≤ pi.length →
      (compute_merkle_root hash leaf pe pi).isSome = true) ∧
    (∃ (leaf : B32) (pe : List B32) (pi : List Nat), pi.length < pe.length ∧
      compute_merkle_root h0 leaf pe pi = none) := by
  constructor
  · intro hash leaf pe pi h
    exact merkleRootAux_isSome hash pi pe 0 leaf (by omega)
  · exact ⟨0, [0], [], by decide, rfl⟩

/-- Witness for C10 at a concrete two-level path. -/
theorem C10_witness :
    (compute_merkle_root h0 5 [1, 2] [0, 1]).isSome = true :=
  C10_merkle_totality.1 h0 5 [1, 2] [0, 1] (by decide)

/-- Claim C2 (failing input): a private_transfer whose two input
nullifier hashes are the equal non-zero value 5 succeeds on a fresh pool
and appends that value twice, so the entries of the nullifier set are
not pairwise distinct: the no-double-mark invariant of the spec is
violated by the code. -/
theorem C2_duplicate_nullifier :
    isOkRun (transferRun h0 initPool (.ok true) 5 5 0 0 0) = true ∧
    (transferStep h0 initPool (.ok true) 5 5 0 0 0).nulls.count = 2 ∧
    (transferStep h0 initPool (.ok true) 5 5 0 0 0).nulls.nullifiers 0 = 5 ∧
    (transferStep h0 initPool (.ok true) 5 5 0 0 0).nulls.nullifiers 1 = 5 ∧
    ¬ pairwiseDistinct (transferStep h0 initPool (.ok true) 5 5 0 0 0).nulls := by
  refine ⟨by decide, by decide, by decide, by decide, ?_⟩
  intro hpd
  exact absurd rfl
    (hpd 0 (by decide) 1 (by decide) (by decide))

/-- Claim C5 (counterexample): after inserting one leaf, the incremental
root differs from the root of a full rebuild in which every internal
node is the hash of its children and absent leaves are all-zero, because
never-written sibling nodes read as 0 rather than hash 0 0. -/
theorem C5_counterexample :
    (insertSeq h0 (fun _ => 5) 7 1).get_root 7 ≠
      rebuildFull h0 (fun _ => 5) 1 7 0 := by
  decide

/-- Claim C7 (counterexample): a successful private_transfer creating
two output notes performs two leaf insertions but advances the root
history write cursor only once, so the history does not receive one push
per state-changing leaf insertion. -/
theorem C7_counterexample :
    isOkRun (transferRun h0 initPool (.ok true) 5 6 7 8 0) = true ∧
    (transferStep h0 initPool (.ok true) 5 6 7 8 0).pool.next_index =
      initPool.pool.next_index + 2 ∧
    (transferStep h0 initPool (.ok true) 5 6 7 8 0).roots.current_index =
      initPool.roots.current_index + 1 ∧
    initPool.roots.current_index + 1 ≠ initPool.roots.current_index + 2 := by
  refine ⟨by decide, by decide, by decide, by decide⟩

/-- Claim C6: unshield succeeds only for a fixed denomination with a
relayer fee of at most the fixed fraction (a tenth); fee 1 on amount
1000000000 passes the fee check, while fee = amount is rejected as
FeeTooHigh because the maximum fraction does not allow 100 percent. -/
theorem C6_denomination_fee :
    ∀ (hash : B32 → B32 → B32) (s : Pool) (pr : Except WhistleError Bool)
      (nh rcpt mr cc : B32) (vb : Nat),
      (∀ (wa rf : Nat) (s1 : Pool),
        unshieldRun hash s pr nh rcpt wa rf mr cc vb = .ok s1 →
        denomOk wa ∧ feeOk wa rf) ∧
      feeOk DENOM_1_SOL 1 ∧
      ¬ feeOk DENOM_1_SOL DENOM_1_SOL ∧
      unshieldRun hash s pr nh rcpt DENOM_1_SOL DENOM_1_SOL mr cc vb =
        .error (.FeeTooHigh, s) := by
  intro hash s pr nh rcpt mr cc vb
  refine ⟨?_, by decide, by decide, ?_⟩
  · intro wa rf s1 h
    unfold unshieldRun at h
    by_cases hd : denomOk wa
    · rw [if_neg (not_not_intro hd)] at h
      by_cases hf : feeOk wa rf
      · exact ⟨hd, hf⟩
      · rw [if_pos hf] at h
        exact absurd h (by simp)
    · rw [if_pos hd] at h
      exact absurd h (by simp)
  · unfold unshieldRun
    rw [if_neg (not_not_intro (by decide : denomOk DENOM_1_SOL)),
      if_pos (by decide : ¬ feeOk DENOM_1_SOL DENOM_1_SOL)]

/-- Witness for C6: a successful concrete unshield obeys both checks,
and the concrete fee-equal-to-amount call is rejected. -/
theorem C6_witness :
    (denomOk DENOM_001_SOL ∧ feeOk DENOM_001_SOL 0) ∧
    feeOk DENOM_1_SOL 1 ∧ ¬ feeOk DENOM_1_SOL DENOM_1_SOL ∧
    unshieldRun h0 fundedPool (.ok true) 5 0 DENOM_1_SOL DENOM_1_SOL 0 0
      DENOM_1_SOL = .error (.FeeTooHigh, fundedPool) := by
  have hc := C6_denomination_fee h0 fundedPool (.ok true) 5 0 0 0 DENOM_1_SOL
  exact ⟨hc.1 DENOM_001_SOL 0
      (unshieldStep h0 fundedPool (.ok true) 5 0 DENOM_001_SOL 0 0 0
        DENOM_1_SOL) rfl,
    hc.2.1, hc.2.2.1, hc.2.2.2⟩

/-- Claim C1: every rejected unshield or private_transfer commits no
change at all to the four structures (the runtime discards the writes of
a failed instruction), and any rejection other than the
post-verification TreeFull, ArithmeticOverflow, InsufficientVaultBalance
(or, for private_transfer, NullifierSetFull) failures had not even
written anything before aborting: all precondition checks and the proof
check run before the first mutation. -/
theorem C1_verify_before_mutate :
    ∀ (hash : B32 → B32 → B32) (s : Pool) (pr : Except WhistleError Bool)
      (nh rcpt : B32) (wa rf : Nat) (mr cc : B32) (vb : Nat)
      (n1 n2 c1 c2 tmr : B32),
      (∀ (e : WhistleError) (s1 : Pool),
        unshieldRun hash s pr nh rcpt wa rf mr cc vb = .error (e, s1) →
        unshieldStep hash s pr nh rcpt wa rf mr cc vb = s ∧
        (e ≠ .TreeFull → e ≠ .ArithmeticOverflow →
          e ≠ .InsufficientVaultBalance → s1 = s)) ∧
      (∀ (e : WhistleError) (s1 : Pool),
        transferRun hash s pr n1 n2 c1 c2 tmr = .error (e, s1) →
        transferStep hash s pr n1 n2 c1 c2 tmr = s ∧
        (e ≠ .TreeFull → e ≠ .ArithmeticOverflow → e ≠ .NullifierSetFull →
          s1 = s)) := by
  intro hash s pr nh rcpt wa rf mr cc vb n1 n2 c1 c2 tmr
  constructor
  · intro e s1 h
    refine ⟨by simp only [unshieldStep]; rw [h]; simp only [commitRun], ?_⟩
    intro h1 h2 h3
    unfold unshieldRun at h
    split at h
    · exact (errPairEq h).2.symm
    split at h
    · exact (errPairEq h).2.symm
    split at h
    · exact (errPairEq h).2.symm
    split at h
    · exact (errPairEq h).2.symm
    split at h
    · exact (errPairEq h).2.symm
    split at h
    · exact (errPairEq h).2.symm
    split at h
    · exact (errPairEq h).2.symm
    split at h
    · next p heq =>
      have hp : p = (e, s1) := by injection h
      rw [hp] at heq
      rcases unshieldChange_err heq with h' | h'
      · exact absurd h' h1
      · exact absurd h' h2
    split at h
    · exact absurd (errPairEq h).1.symm h3
    split at h
    · next e0 heq =>
      exact absurd ((errPairEq h).1 ▸ checkedSubU64_err heq) h2
    split at h
    · next e0 heq =>
      exact absurd ((errPairEq h).1 ▸ checkedSubU64_err heq) h2
    exact absurd h (by simp)
  · intro e s1 h
    refine ⟨by simp only [transferStep]; rw [h]; simp only [commitRun], ?_⟩
    intro h1 h2 h3
    unfold transferRun at h
    split at h
    · exact (errPairEq h).2.symm
    split at h
    · exact (errPairEq h).2.symm
    split at h
    · exact (errPairEq h).2.symm
    split at h
    · exact (errPairEq h).2.symm
    split at h
    · exact (errPairEq h).2.symm
    split at h
    · next p heq =>
      have hp : p = (e, s1) := by injection h
      rw [hp] at heq
      exact absurd (markIfNonzero_err heq) h3
    split at h
    · next p heq =>
      have hp : p = (e, s1) := by injection h
      rw [hp] at heq
      exact absurd (markIfNonzero_err heq) h3
    split at h
    · next p heq =>
      have hp : p = (e, s1) := by injection h
      rw [hp] at heq
      rcases insertOutput_err heq with h' | h'
      · exact absurd h' h1
      · exact absurd h' h2
    split at h
    · next p heq =>
      have hp : p = (e, s1) := by injection h
      rw [hp] at heq
      rcases insertOutput_err heq with h' | h'
      · exact absurd h' h1
      · exact absurd h' h2
    exact absurd h (by simp)

/-- Witness for C1: an unshield with an invalid denomination and a
private_transfer against an unknown root both commit the unchanged
pre-state. -/
theorem C1_witness :
    unshieldStep h0 initPool (.ok true) 5 0 3 0 0 0 0 = initPool ∧
    transferStep h0 initPool (.ok true) 5 6 0 0 1 = initPool := by
  have hc := C1_verify_before_mutate h0 initPool (.ok true) 5 0 3 0 0 0 0
    5 6 0 0 1
  exact ⟨(hc.1 .InvalidWithdrawDenomination initPool rfl).1,
    (hc.2 .InvalidMerkleRoot initPool rfl).1⟩

theorem foldlM_map_except {α β γ ε : Type} (g : α → β) (f : γ → β → Except ε γ)
    (l : List α) (b : γ) :
    (l.map g).foldlM f b = l.foldlM (fun x y => f x (g y)) b := by
  induction l generalizing b with
  | nil => rfl
  | cons a l2 ih =>
    simp only [List.map_cons, List.foldlM_cons]
    cases f b (g a) with
    | error e => rfl
    | ok b2 => exact ih b2

theorem linCombAux_foldlM (ops : AltBn128) (ic : List G1) :
    ∀ (l : List Nat) (i : Nat) (acc : G1),
      linCombAux ops ic i acc l =
        (List.range l.length).foldlM
          (fun a j => icStep ops ic (i + j) a (l.getD j 0)) acc := by
  intro l
  induction l with
  | nil =>
    intro i acc
    rfl
  | cons v rest ih =>
    intro i acc
    simp only [linCombAux, List.length_cons, List.range_succ_eq_map,
      List.foldlM_cons, foldlM_map_except, Nat.add_zero, List.getD_cons_zero]
    cases icStep ops ic i acc v with
    | error e => rfl
    | ok sum =>
      show linCombAux ops ic (i + 1) sum rest =
        List.foldlM
          (fun x y => icStep ops ic (i + Nat.succ y) x
            ((v :: rest).getD (Nat.succ y) 0)) sum (List.range rest.length)
      rw [ih (i + 1) sum]
      congr 1
      funext x y
      rw [List.getD_cons_succ, show i + Nat.succ y = i + 1 + y by omega]

theorem compute_linear_combination_eq_spec (ops : AltBn128) (ic : List G1)
    (inputs : List Nat) :
    compute_linear_combination ops ic inputs = specVkX ops ic inputs := by
  unfold compute_linear_combination specVkX
  rw [linCombAux_foldlM]
  congr 1
  funext a j
  simp only [Nat.zero_add]

/-- Claim C3: verify_groth16_proof hard-fails whenever the public-input
count differs from the IC length minus one, and otherwise implements
exactly the spec algorithm: vk_x as the IC linear combination over the
scalar-multiplication and point-addition capability, negation of A, the
four-way pairing product, and acceptance exactly when the pairing
product is the multiplicative identity. -/
theorem C3_groth16_structure :
    ∀ (ops : AltBn128) (a : G1) (b : G2) (c : G1) (inputs : List Nat)
      (vk : VerificationKey),
      (vk.ic.length ≠ inputs.length + 1 →
        verify_groth16_proof ops a b c inputs vk =
          .error .InvalidVerificationKey) ∧
      verify_groth16_proof ops a b c inputs vk =
        groth16SpecCheck ops a b c inputs vk := by
  intro ops a b c inputs vk
  constructor
  · intro hne
    unfold verify_groth16_proof
    rw [if_neg hne]
  · unfold verify_groth16_proof groth16SpecCheck
    rw [compute_linear_combination_eq_spec]

/-- Witness for C3: an empty IC vector is a hard failure against one
public input, and a concrete well-sized call agrees with the spec
algorithm. -/
theorem C3_witness :
    verify_groth16_proof opsId ⟨1, 1⟩ 2 ⟨3, 3⟩ [] vkEmpty =
      .error .InvalidVerificationKey ∧
    verify_groth16_proof opsId ⟨1, 1⟩ 2 ⟨3, 3⟩ [7] vkTwo =
      groth16SpecCheck opsId ⟨1, 1⟩ 2 ⟨3, 3⟩ [7] vkTwo :=
  ⟨(C3_groth16_structure opsId ⟨1, 1⟩ 2 ⟨3, 3⟩ [] vkEmpty).1 (by decide),
   (C3_groth16_structure opsId ⟨1, 1⟩ 2 ⟨3, 3⟩ [7] vkTwo).2⟩

theorem checkedAddU64_ok {a b v : Nat} (h : checkedAddU64 a b = .ok v) :
    v = a + b := by
  unfold checkedAddU64 at h
  split at h
  · injection h with h2
    exact h2.symm
  · exact absurd h (by simp)

theorem markIfNonzero_ok {s : Pool} {n : B32} {sA : Pool}
    (h : markIfNonzero s n = .ok sA) :
    sA.pool = s.pool ∧ sA.tree = s.tree ∧ sA.roots = s.roots := by
  unfold markIfNonzero at h
  split at h
  · cases hm : s.nulls.mark_spent n with
    | error e =>
      rw [hm] at h
      exact absurd h (by simp)
    | ok ns =>
      rw [hm] at h
      injection h with h2
      rw [← h2]
      exact ⟨rfl, rfl, rfl⟩
  · injection h with h2
    rw [← h2]
    exact ⟨rfl, rfl, rfl⟩

theorem insertOutput_ok {hash : B32 → B32 → B32} {s : Pool} {c : B32}
    {sC : Pool} (h : insertOutput hash s c = .ok sC) :
    sC.pool.next_index = s.pool.next_index + (if c ≠ 0 then 1 else 0) ∧
    sC.roots = s.roots ∧ sC.nulls = s.nulls ∧
    sC.pool.merkle_levels = s.pool.merkle_levels ∧
    sC.pool.current_root = s.pool.current_root := by
  unfold insertOutput at h
  split at h
  · next hc =>
    split at h
    · exact absurd h (by simp)
    · split at h
      · exact absurd h (by simp)
      · next ni heq =>
        injection h with h2
        rw [← h2, if_pos hc]
        exact ⟨checkedAddU64_ok heq, rfl, rfl, rfl, rfl⟩
  · next hc =>
    injection h with h2
    rw [← h2, if_neg hc]
    exact ⟨rfl, rfl, rfl, rfl, rfl⟩

theorem unshieldChange_ok {hash : B32 → B32 → B32} {s : Pool} {cc : B32}
    {sC : Pool} (h : unshieldChange hash s cc = .ok sC) :
    (cc = 0 → sC = s) ∧
    (cc ≠ 0 → sC.pool.next_index = s.pool.next_index + 1 ∧
      sC.roots = s.roots.push sC.pool.current_root ∧
      sC.nulls = s.nulls) := by
  unfold unshieldChange at h
  split at h
  · next hc =>
    refine ⟨fun h0 => absurd h0 hc, fun _ => ?_⟩
    split at h
    · exact absurd h (by simp)
    · split at h
      · exact absurd h (by simp)
      · next ni heq =>
        injection h with h2
        rw [← h2]
        exact ⟨checkedAddU64_ok heq, rfl, rfl⟩
  · next hc =>
    injection h with h2
    exact ⟨fun _ => h2.symm, fun hne => absurd (not_not.mp hc) hne⟩

/-- Claim C7 (amended): leaf indices are assigned strictly increasing in
commit order (next_index advances by exactly the number of inserted
leaves); shield and a change-bearing unshield push the root history
exactly once per inserted leaf; an unshield without change performs no
push; private_transfer performs exactly one push per successful call,
after all of its 0, 1 or 2 insertions; and after every push the current
root is the most recently written history slot. -/
theorem C7_push_accounting :
    ∀ (hash : B32 → B32 → B32) (s : Pool) (pr : Except WhistleError Bool)
      (cm : B32) (am : Nat) (nh rcpt : B32) (wa rf : Nat) (mr cc : B32)
      (vb : Nat) (n1 n2 c1 c2 tmr : B32),
      (∀ s1, shieldRun hash s cm am = .ok s1 →
        s1.pool.next_index = s.pool.next_index + 1 ∧
        s1.roots = s.roots.push s1.pool.current_root) ∧
      (∀ s1, unshieldRun hash s pr nh rcpt wa rf mr cc vb = .ok s1 →
        (cc = 0 → s1.pool.next_index = s.pool.next_index ∧
          s1.roots = s.roots) ∧
        (cc ≠ 0 → s1.pool.next_index = s.pool.next_index + 1 ∧
          s1.roots = s.roots.push s1.pool.current_root)) ∧
      (∀ s1, transferRun hash s pr n1 n2 c1 c2 tmr = .ok s1 →
        s1.pool.next_index = s.pool.next_index +
          ((if c1 ≠ 0 then 1 else 0) + (if c2 ≠ 0 then 1 else 0)) ∧
        s1.roots = s.roots.push s1.pool.current_root) := by
  intro hash s pr cm am nh rcpt wa rf mr cc vb n1 n2 c1 c2 tmr
  refine ⟨?_, ?_, ?_⟩
  · intro s1 h
    unfold shieldRun at h
    split at h
    · exact absurd h (by simp)
    split at h
    · exact absurd h (by simp)
    split at h
    · exact absurd h (by simp)
    next ni heq1 =>
    split at h
    · exact absurd h (by simp)
    split at h
    · exact absurd h (by simp)
    injection h with h2
    rw [← h2]
    exact ⟨checkedAddU64_ok heq1, rfl⟩
  · intro s1 h
    unfold unshieldRun at h
    split at h
    · exact absurd h (by simp)
    split at h
    · exact absurd h (by simp)
    split at h
    · exact absurd h (by simp)
    split at h
    · exact absurd h (by simp)
    split at h
    · exact absurd h (by simp)
    split at h
    · exact absurd h (by simp)
    split at h
    · exact absurd h (by simp)
    next ns1 heqm =>
    split at h
    · exact absurd h (by simp)
    next sC heqC =>
    split at h
    · exact absurd h (by simp)
    split at h
    · exact absurd h (by simp)
    split at h
    · exact absurd h (by simp)
    next ts2 heqs =>
    injection h with h2
    have hC := unshieldChange_ok heqC
    constructor
    · intro h0
      have hCs := hC.1 h0
      rw [← h2, hCs]
      exact ⟨rfl, rfl⟩
    · intro hne
      obtain ⟨ha, hb, _⟩ := hC.2 hne
      rw [← h2]
      exact ⟨ha, hb⟩
  · intro s1 h
    unfold transferRun at h
    split at h
    · exact absurd h (by simp)
    split at h
    · exact absurd h (by simp)
    split at h
    · exact absurd h (by simp)
    split at h
    · exact absurd h (by simp)
    split at h
    · exact absurd h (by simp)
    split at h
    · exact absurd h (by simp)
    next sA heqm1 =>
    split at h
    · exact absurd h (by simp)
    next sB heqm2 =>
    split at h
    · exact absurd h (by simp)
    next sC heqi1 =>
    split at h
    · exact absurd h (by simp)
    next sD heqi2 =>
    injection h with h2
    obtain ⟨hA1, _, hA3⟩ := markIfNonzero_ok heqm1
    obtain ⟨hB1, _, hB3⟩ := markIfNonzero_ok heqm2
    obtain ⟨hC1, hC2, _, _, _⟩ := insertOutput_ok heqi1
    obtain ⟨hD1, hD2, _, _, _⟩ := insertOutput_ok heqi2
    rw [← h2]
    constructor
    · show sD.pool.next_index = _
      rw [hD1, hC1, hB1, hA1]
      omega
    · show sD.roots.push (sD.tree.get_root sD.pool.merkle_levels) = _
      rw [hD2, hC2, hB3, hA3]

/-- Witness for C7 at concrete successful shield, unshield and
private_transfer calls. -/
theorem C7_witness :
    ((shieldStep h0 initPool 9 MIN_DEPOSIT).pool.next_index =
      initPool.pool.next_index + 1 ∧
     (shieldStep h0 initPool 9 MIN_DEPOSIT).roots =
      initPool.roots.push
        (shieldStep h0 initPool 9 MIN_DEPOSIT).pool.current_root) ∧
    (unshieldStep h0 fundedPool (.ok true) 5 0 DENOM_001_SOL 0 0 0
        DENOM_001_SOL).roots = fundedPool.roots ∧
    (transferStep h0 initPool (.ok true) 11 12 13 14 0).pool.next_index =
      initPool.pool.next_index + 2 := by
  have hc := C7_push_accounting h0 initPool (.ok true) 9 MIN_DEPOSIT
    5 0 DENOM_001_SOL 0 0 0 DENOM_001_SOL 11 12 13 14 0
  have hcu := C7_push_accounting h0 fundedPool (.ok true) 9 MIN_DEPOSIT
    5 0 DENOM_001_SOL 0 0 0 DENOM_001_SOL 11 12 13 14 0
  refine ⟨hc.1 (shieldStep h0 initPool 9 MIN_DEPOSIT) rfl, ?_, ?_⟩
  · exact ((hcu.2.1 (unshieldStep h0 fundedPool (.ok true) 5 0 DENOM_001_SOL
      0 0 0 DENOM_001_SOL) rfl).1 rfl).2
  · have := hc.2.2 (transferStep h0 initPool (.ok true) 11 12 13 14 0) rfl
    simpa using this.1

theorem histAfter_concat (ys : List B32) (y : B32) :
    histAfter (ys ++ [y]) = (histAfter ys).push y := by
  unfold histAfter
  rw [List.foldl_concat]

theorem histAfter_roots_length (rs : List B32) :
    (histAfter rs).roots.length = 100 := by
  induction rs using List.reverseRecOn with
  | nil => rfl
  | append_singleton ys y ih =>
    rw [histAfter_concat]
    simp only [RootsHistory.push, List.length_set]
    exact ih

theorem histAfter_cursor (rs : List B32) :
    (histAfter rs).current_index = rs.length % 100 := by
  induction rs using List.reverseRecOn with
  | nil => rfl
  | append_singleton ys y ih =>
    rw [histAfter_concat]
    simp only [RootsHistory.push, List.length_append, List.length_cons,
      List.length_nil, ih]
    omega

theorem histAfter_slot (rs : List B32) :
    ∀ j < 100,
      (∃ m, m < rs.length ∧ m % 100 = j ∧ rs.length ≤ m + 100 ∧
        (histAfter rs).roots.getD j 0 = rs.getD m 0) ∨
      (rs.length ≤ j ∧ (histAfter rs).roots.getD j 0 = 0) := by
  induction rs using List.reverseRecOn with
  | nil =>
    intro j hj
    right
    refine ⟨Nat.zero_le j, ?_⟩
    show (List.replicate 100 (0 : B32)).getD j 0 = 0
    rw [List.getD_eq_getElem _ _ (by simpa using hj), List.getElem_replicate]
  | append_singleton ys y ih =>
    intro j hj
    have hlen := histAfter_roots_length ys
    have hcur := histAfter_cursor ys
    have hslen : ((histAfter ys).roots.set (histAfter ys).current_index
        y).length = 100 := by
      rw [List.length_set, hlen]
    rw [histAfter_concat]
    simp only [RootsHistory.push, List.length_append, List.length_cons,
      List.length_nil]
    by_cases hjc : j = ys.length % 100
    · left
      refine ⟨ys.length, by omega, by omega, by omega, ?_⟩
      rw [List.getD_eq_getElem _ _ (by omega), List.getElem_set,
        if_pos (by omega : (histAfter ys).current_index = j),
        List.getD_append_right ys [y] 0 ys.length (le_refl _)]
      simp
    · rcases ih j hj with ⟨m, hm1, hm2, hm3, hv⟩ | ⟨hj2, hv⟩
      · left
        refine ⟨m, by omega, hm2, by omega, ?_⟩
        rw [List.getD_eq_getElem _ _ (by omega), List.getElem_set,
          if_neg (by omega : ¬ (histAfter ys).current_index = j),
          ← List.getD_eq_getElem _ _ (by omega),
          List.getD_append ys [y] 0 m hm1]
        exact hv
      · right
        refine ⟨by omega, ?_⟩
        rw [List.getD_eq_getElem _ _ (by omega), List.getElem_set,
          if_neg (by omega : ¬ (histAfter ys).current_index = j),
          ← List.getD_eq_getElem _ _ (by omega)]
        exact hv

theorem histAfter_mem_recent (rs : List B32) (k : Nat) (hk : k < 100)
    (hkn : k < rs.length) :
    (histAfter rs).contains (rs.getD (rs.length - 1 - k) 0) = true := by
  have hlen := histAfter_roots_length rs
  have hj : (rs.length - 1 - k) % 100 < 100 := Nat.mod_lt _ (by omega)
  rcases histAfter_slot rs ((rs.length - 1 - k) % 100) hj with
    ⟨m, hm1, hm2, hm3, hv⟩ | ⟨hj2, hv⟩
  · have hmm : m = rs.length - 1 - k := by omega
    rw [hmm] at hv
    simp only [RootsHistory.contains, decide_eq_true_eq]
    rw [List.getD_eq_getElem _ _ (by omega)] at hv
    exact List.mem_iff_getElem.mpr ⟨_, by omega, hv⟩
  · omega

theorem histAfter_not_mem_old (rs : List B32) (r : B32)
    (hn : 100 ≤ rs.length)
    (hfresh : ∀ m, rs.length - 100 ≤ m → m < rs.length → rs.getD m 0 ≠ r) :
    (histAfter rs).contains r = false := by
  simp only [RootsHistory.contains, decide_eq_false_iff_not]
  intro hmem
  obtain ⟨j, hjl, hje⟩ := List.mem_iff_getElem.mp hmem
  have hlen := histAfter_roots_length rs
  have hj100 : j < 100 := by omega
  rcases histAfter_slot rs j hj100 with ⟨m, hm1, hm2, hm3, hv⟩ | ⟨hj2, hv⟩
  · apply hfresh m (by omega) hm1
    rw [List.getD_eq_getElem _ _ (by omega)] at hv
    exact hv.symm.trans hje
  · omega

/-- Claim C4: in a state whose root history received the pushes rs (one
per state-changing root update, in commit order, into a fresh buffer)
and whose current root is the last push, the root-validity check of
unshield and private_transfer accepts the root that was current k
updates ago whenever k < 100, and rejects a root that was pushed only
k >= 100 updates ago (so that it is evicted: it differs from the last
100 pushed roots). -/
theorem C4_root_history_window :
    ∀ (rs : List B32) (k : Nat) (r cur : B32),
      (k < 100 → k < rs.length →
        rootValidFor cur (histAfter rs) (rs.getD (rs.length - 1 - k) 0) =
          true) ∧
      (100 ≤ rs.length →
        (∀ m, rs.length - 100 ≤ m → m < rs.length → rs.getD m 0 ≠ r) →
        cur = rs.getD (rs.length - 1) 0 →
        rootValidFor cur (histAfter rs) r = false) := by
  intro rs k r cur
  constructor
  · intro hk hkn
    unfold rootValidFor
    rw [histAfter_mem_recent rs k hk hkn, Bool.or_true]
  · intro hn hfresh hcur
    unfold rootValidFor
    rw [histAfter_not_mem_old rs r hn hfresh, Bool.or_false,
      beq_eq_false_iff_ne, hcur]
    exact (hfresh (rs.length - 1) (by omega) (by omega)).symm

/-- Witness for C4: after pushes [1, 2, 3] the root 2 (one update old)
is accepted; after 101 pushes 1..101 the first root is evicted and
rejected. -/
theorem C4_witness :
    rootValidFor 0 (histAfter [1, 2, 3]) ([1, 2, 3].getD 1 0) = true ∧
    rootValidFor (((List.range 101).map (fun x => x + 1)).getD 100 0)
      (histAfter ((List.range 101).map (fun x => x + 1))) 1 = false := by
  constructor
  · exact (C4_root_history_window [1, 2, 3] 1 5 0).1 (by decide) (by decide)
  · refine (C4_root_history_window ((List.range 101).map (fun x => x + 1)) 0 1
      (((List.range 101).map (fun x => x + 1)).getD 100 0)).2 (by decide)
      ?_ rfl
    intro m h1 h2
    simp only [List.length_map, List.length_range] at h1 h2
    exact (by decide : ∀ m < 101, 1 ≤ m →
      ((List.range 101).map (fun x => x + 1)).getD m 0 ≠ 1) m h2 h1

theorem rebuildZero_zero (hash : B32 → B32 → B32) (leaves : Nat → B32) :
    ∀ (h t : Nat), rebuildZero hash leaves 0 h t = 0 := by
  intro h t
  cases h with
  | zero => simp [rebuildZero]
  | succ h2 => simp [rebuildZero]

theorem subtree_cases {n t h : Nat} (hne : t ≠ n / 2 ^ h) :
    n < t * 2 ^ h ∨ (t + 1) * 2 ^ h ≤ n := by
  have hp : 0 < 2 ^ h := Nat.pow_pos (by omega)
  rcases Nat.lt_or_ge t (n / 2 ^ h) with hlt | hge
  · right
    calc (t + 1) * 2 ^ h ≤ (n / 2 ^ h) * 2 ^ h := Nat.mul_le_mul_right _ hlt
      _ ≤ n := Nat.div_mul_le_self n _
  · left
    have h1 : n / 2 ^ h + 1 ≤ t := by omega
    have hd := Nat.div_add_mod n (2 ^ h)
    have hm := Nat.mod_lt n hp
    have h5 : 2 ^ h * (n / 2 ^ h + 1) = 2 ^ h * (n / 2 ^ h) + 2 ^ h := by ring
    have h3 : 2 ^ h * (n / 2 ^ h + 1) ≤ 2 ^ h * t := Nat.mul_le_mul_left _ h1
    have h6 : 2 ^ h * t = t * 2 ^ h := Nat.mul_comm _ _
    omega

theorem rebuildZero_congr (hash : B32 → B32 → B32) (leaves : Nat → B32)
    {n : Nat} : ∀ (h t : Nat), (n < t * 2 ^ h ∨ (t + 1) * 2 ^ h ≤ n) →
      rebuildZero hash leaves n h t = rebuildZero hash leaves (n + 1) h t := by
  intro h
  induction h with
  | zero =>
    intro t hc
    simp only [rebuildZero, pow_zero, Nat.mul_one] at hc ⊢
    rcases hc with hc | hc
    · rw [if_neg (by omega), if_neg (by omega)]
    · rw [if_pos (by omega), if_pos (by omega)]
  | succ h2 ih =>
    intro t hc
    simp only [rebuildZero]
    rcases hc with hc | hc
    · rw [if_pos (by omega), if_pos (by omega)]
    · have hexp : (t + 1) * 2 ^ (h2 + 1) = t * 2 ^ (h2 + 1) + 2 ^ (h2 + 1) := by
        ring
      have hpp : 0 < 2 ^ (h2 + 1) := Nat.pow_pos (by omega)
      rw [if_neg (by omega), if_neg (by omega)]
      have hcc : (2 * t + 2) * 2 ^ h2 ≤ n := by
        have : (t + 1) * 2 ^ (h2 + 1) = (2 * t + 2) * 2 ^ h2 := by ring
        omega
      have hc1 : (2 * t + 1) * 2 ^ h2 ≤ n := by
        have := Nat.mul_le_mul_right (2 ^ h2) (by omega : 2 * t + 1 ≤ 2 * t + 2)
        omega
      have hc2 : (2 * t + 1 + 1) * 2 ^ h2 ≤ n := by
        have : (2 * t + 1 + 1) * 2 ^ h2 = (2 * t + 2) * 2 ^ h2 := by ring
        omega
      rw [ih (2 * t) (Or.inr hc1), ih (2 * t + 1) (Or.inr hc2)]

theorem levelOf_spec {j t : Nat} (ht : t < 2 ^ j) :
    levelOf (2 ^ j - 1 + t) = j ∧ offOf (2 ^ j - 1 + t) = t := by
  have h1 : 1 ≤ (2:Nat) ^ j := Nat.one_le_two_pow
  have hq : 2 ^ j - 1 + t + 1 = 2 ^ j + t := by omega
  have hlt : 2 ^ j + t < 2 ^ (j + 1) := by
    have : (2:Nat) ^ (j + 1) = 2 ^ j + 2 ^ j := by ring
    omega
  have hlevel : levelOf (2 ^ j - 1 + t) = j := by
    unfold levelOf
    rw [hq, Nat.log2_eq_log_two]
    exact Nat.log_eq_of_pow_le_of_lt_pow (by omega) hlt
  refine ⟨hlevel, ?_⟩
  unfold offOf
  rw [hlevel]
  omega

theorem pos_decomp (q : Nat) :
    2 ^ levelOf q - 1 + offOf q = q ∧ offOf q < 2 ^ levelOf q := by
  have h0 : q + 1 ≠ 0 := by omega
  have hle : 2 ^ levelOf q ≤ q + 1 := by
    unfold levelOf
    rw [Nat.log2_eq_log_two]
    exact Nat.pow_log_le_self 2 h0
  have hlt : q + 1 < 2 ^ (levelOf q + 1) := by
    unfold levelOf
    rw [Nat.log2_eq_log_two]
    exact Nat.lt_pow_succ_log_self (by omega) _
  have hdb : (2:Nat) ^ (levelOf q + 1) = 2 ^ levelOf q + 2 ^ levelOf q := by
    ring
  constructor
  · unfold offOf
    omega
  · unfold offOf
    omega

theorem aPos_off_lt {L n j : Nat} (hj : j ≤ L) (hn : n < 2 ^ L) :
    n / 2 ^ (L - j) < 2 ^ j := by
  rw [Nat.div_lt_iff_lt_mul (Nat.pow_pos (by omega))]
  have hsp : (2:Nat) ^ j * 2 ^ (L - j) = 2 ^ L := by
    rw [← pow_add]
    congr 1
    omega
  omega

theorem levelOf_aPos {L n j : Nat} (hj : j ≤ L) (hn : n < 2 ^ L) :
    levelOf (aPos L n j) = j ∧ offOf (aPos L n j) = n / 2 ^ (L - j) :=
  levelOf_spec (aPos_off_lt hj hn)

theorem aPos_parent {L n j : Nat} (hj : j + 1 ≤ L) (_hn : n < 2 ^ L) :
    (aPos L n (j + 1) - 1) / 2 = aPos L n j := by
  unfold aPos
  have h2 : (2:Nat) ^ (j + 1) = 2 * 2 ^ j := by ring
  have h1 : 1 ≤ (2:Nat) ^ j := Nat.one_le_two_pow
  have hdd : n / 2 ^ (L - (j + 1)) / 2 = n / 2 ^ (L - j) := by
    rw [Nat.div_div_eq_div_mul]
    congr 1
    rw [← pow_succ]
    congr 1
    omega
  rw [← hdd]
  generalize n / 2 ^ (L - (j + 1)) = f
  rw [h2]
  generalize (2:Nat) ^ j = A at h1
  omega

theorem aPos_top (L n : Nat) : aPos L n L = 2 ^ L - 1 + n := by
  unfold aPos
  rw [Nat.sub_self, pow_zero, Nat.div_one]

theorem aPos_zero {L n : Nat} (hn : n < 2 ^ L) : aPos L n 0 = 0 := by
  unfold aPos
  rw [Nat.sub_zero, Nat.div_eq_of_lt hn]
  simp

theorem treeModel_at (hash : B32 → B32 → B32) (leaves : Nat → B32)
    {L n j t : Nat} (hj : j ≤ L) (ht : t < 2 ^ j) :
    treeModel hash leaves L n (2 ^ j - 1 + t) =
      rebuildZero hash leaves n (L - j) t := by
  unfold treeModel
  rw [(levelOf_spec ht).1, (levelOf_spec ht).2, if_pos hj]

theorem treeModel_congr (hash : B32 → B32 → B32) (leaves : Nat → B32)
    {L n q : Nat} (hq : L < levelOf q ∨ q ≠ aPos L n (levelOf q)) :
    treeModel hash leaves L n q = treeModel hash leaves L (n + 1) q := by
  unfold treeModel
  by_cases hl : levelOf q ≤ L
  · rw [if_pos hl, if_pos hl]
    apply rebuildZero_congr
    have hne : offOf q ≠ n / 2 ^ (L - levelOf q) := by
      intro hEq
      rcases hq with hq | hq
      · omega
      · apply hq
        have hd := pos_decomp q
        unfold aPos
        rw [← hEq]
        exact hd.1.symm
    exact subtree_cases hne
  · rw [if_neg hl, if_neg hl]

theorem midModel_at_aPos (hash : B32 → B32 → B32) (leaves : Nat → B32)
    {L n j i : Nat} (hi : j ≤ i) (hiL : i ≤ L) :
    midModel hash leaves L n j (aPos L n i) =
      treeModel hash leaves L (n + 1) (aPos L n i) := by
  unfold midModel
  rw [if_pos ⟨i, hiL, hi, rfl⟩]

theorem midModel_sibling (hash : B32 → B32 → B32) (leaves : Nat → B32)
    {L n j u : Nat} (hjL : j + 1 ≤ L) (hn : n < 2 ^ L)
    (hu : u < 2 ^ (j + 1)) (hne : u ≠ n / 2 ^ (L - (j + 1))) :
    midModel hash leaves L n (j + 1) (2 ^ (j + 1) - 1 + u) =
      treeModel hash leaves L (n + 1) (2 ^ (j + 1) - 1 + u) := by
  have hlev := levelOf_spec hu
  unfold midModel
  rw [if_neg ?hno]
  case hno =>
    rintro ⟨i, hiL, hij, hq⟩
    have hlev2 := levelOf_aPos hiL hn
    have hieq : i = j + 1 := by
      have := congrArg levelOf hq
      rw [hlev.1, hlev2.1] at this
      omega
    apply hne
    have := congrArg offOf hq
    rw [hlev.2, hlev2.2, hieq] at this
    exact this
  apply treeModel_congr
  right
  rw [hlev.1]
  intro hq
  apply hne
  have := congrArg offOf hq
  rw [hlev.2, (levelOf_aPos hjL hn).2] at this
  exact this

theorem midModel_lower (hash : B32 → B32 → B32) (leaves : Nat → B32)
    {L n j q : Nat} (hq : q ≠ aPos L n j) :
    midModel hash leaves L n (j + 1) q = midModel hash leaves L n j q := by
  unfold midModel
  by_cases hex : ∃ i ≤ L, j + 1 ≤ i ∧ q = aPos L n i
  · rw [if_pos hex]
    obtain ⟨i, h1, h2, h3⟩ := hex
    rw [if_pos ⟨i, h1, by omega, h3⟩]
  · rw [if_neg hex, if_neg ?hno2]
    case hno2 =>
      rintro ⟨i, h1, h2, h3⟩
      rcases Nat.eq_or_lt_of_le h2 with hji | hji
      · exact hq (by rw [h3, ← hji])
      · exact hex ⟨i, h1, by omega, h3⟩

theorem treeModel_parent_node (hash : B32 → B32 → B32) (leaves : Nat → B32)
    {L n j : Nat} (hjL : j + 1 ≤ L) (hn : n < 2 ^ L) :
    treeModel hash leaves L (n + 1) (aPos L n j) =
      hash
        (treeModel hash leaves L (n + 1)
          (2 ^ (j + 1) - 1 + 2 * (n / 2 ^ (L - j))))
        (treeModel hash leaves L (n + 1)
          (2 ^ (j + 1) - 1 + (2 * (n / 2 ^ (L - j)) + 1))) := by
  have htj : n / 2 ^ (L - j) < 2 ^ j := aPos_off_lt (by omega) hn
  have hj2 : (2:Nat) ^ (j + 1) = 2 * 2 ^ j := by ring
  have hLj : L - j = (L - (j + 1)) + 1 := by omega
  have h2tj : 2 * (n / 2 ^ (L - j)) < 2 ^ (j + 1) := by omega
  have h2tj1 : 2 * (n / 2 ^ (L - j)) + 1 < 2 ^ (j + 1) := by omega
  show treeModel hash leaves L (n + 1) (2 ^ j - 1 + n / 2 ^ (L - j)) = _
  rw [treeModel_at hash leaves (by omega : j ≤ L) htj,
    treeModel_at hash leaves hjL h2tj, treeModel_at hash leaves hjL h2tj1]
  set t0 := n / 2 ^ (L - j) with ht0
  rw [hLj]
  simp only [rebuildZero]
  rw [if_neg ?hg]
  case hg =>
    rw [← hLj]
    have hms := Nat.div_mul_le_self n (2 ^ (L - j))
    rw [← ht0] at hms
    omega

theorem updChain_level (hash : B32 → B32 → B32) (leaves : Nat → B32)
    {L n : Nat} (hL : L ≤ 13) (hn : n < 2 ^ L) :
    ∀ j, j ≤ L → ∀ t : MerkleTree,
      (∀ q, t.nodes q = midModel hash leaves L n j q) →
      ∀ q, (updChain hash t (aPos L n j)).nodes q =
        treeModel hash leaves L (n + 1) q := by
  intro j
  induction j with
  | zero =>
    intro _ t ht q
    rw [aPos_zero hn, updChain_zero, ht q]
    unfold midModel
    split
    · rfl
    · next hno =>
      apply treeModel_congr
      by_cases hl : levelOf q ≤ L
      · right
        intro hq
        exact hno ⟨levelOf q, hl, Nat.zero_le _, hq⟩
      · left
        omega
  | succ j ihj =>
    intro hjL t ht
    have hj1 : 1 ≤ (2:Nat) ^ j := Nat.one_le_two_pow
    have hj2 : (2:Nat) ^ (j + 1) = 2 * 2 ^ j := by ring
    have htj : n / 2 ^ (L - j) < 2 ^ j := aPos_off_lt (by omega) hn
    have ht1 : n / 2 ^ (L - (j + 1)) < 2 ^ (j + 1) := aPos_off_lt hjL hn
    have hdd : n / 2 ^ (L - (j + 1)) / 2 = n / 2 ^ (L - j) := by
      rw [Nat.div_div_eq_div_mul]
      congr 1
      rw [← pow_succ]
      congr 1
      omega
    have hpos1 : 1 ≤ aPos L n (j + 1) := by
      unfold aPos
      rw [hj2]
      generalize n / 2 ^ (L - (j + 1)) = f
      omega
    rw [show aPos L n (j + 1) = (aPos L n (j + 1) - 1) + 1 by omega,
      updChain_succ, aPos_parent hjL hn]
    apply ihj (by omega)
    intro q2
    simp only [writeNode]
    by_cases hq2 : q2 = aPos L n j
    · rw [if_pos hq2, hq2,
        midModel_at_aPos hash leaves (le_refl j) (by omega)]
      have hc1 : 2 * aPos L n j + 1 =
          2 ^ (j + 1) - 1 + 2 * (n / 2 ^ (L - j)) := by
        unfold aPos
        omega
      have hc2 : 2 * aPos L n j + 2 =
          2 ^ (j + 1) - 1 + (2 * (n / 2 ^ (L - j)) + 1) := by
        unfold aPos
        omega
      have hb : (2:Nat) ^ (j + 2) ≤ 16384 := by
        calc (2:Nat) ^ (j + 2) ≤ 2 ^ 14 :=
              Nat.pow_le_pow_right (by omega) (by omega)
          _ = 16384 := by norm_num
      have h4j : (2:Nat) ^ (j + 2) = 4 * 2 ^ j := by ring
      have hlt1 : 2 * aPos L n j + 1 < TREE_NODES := by
        show 2 * aPos L n j + 1 < 16384
        unfold aPos
        omega
      have hlt2 : 2 * aPos L n j + 2 < TREE_NODES := by
        show 2 * aPos L n j + 2 < 16384
        unfold aPos
        omega
      simp only [readChild]
      rw [if_pos hlt1, if_pos hlt2, ht (2 * aPos L n j + 1),
        ht (2 * aPos L n j + 2), hc1, hc2]
      have hpar : n / 2 ^ (L - (j + 1)) = 2 * (n / 2 ^ (L - j)) ∨
          n / 2 ^ (L - (j + 1)) = 2 * (n / 2 ^ (L - j)) + 1 := by
        omega
      have hch1 : midModel hash leaves L n (j + 1)
          (2 ^ (j + 1) - 1 + 2 * (n / 2 ^ (L - j))) =
          treeModel hash leaves L (n + 1)
            (2 ^ (j + 1) - 1 + 2 * (n / 2 ^ (L - j))) := by
        rcases hpar with hp | hp
        · have hpos : 2 ^ (j + 1) - 1 + 2 * (n / 2 ^ (L - j)) =
              aPos L n (j + 1) := by
            unfold aPos
            omega
          rw [hpos]
          exact midModel_at_aPos hash leaves (by omega) hjL
        · exact midModel_sibling hash leaves hjL hn (by omega) (by omega)
      have hch2 : midModel hash leaves L n (j + 1)
          (2 ^ (j + 1) - 1 + (2 * (n / 2 ^ (L - j)) + 1)) =
          treeModel hash leaves L (n + 1)
            (2 ^ (j + 1) - 1 + (2 * (n / 2 ^ (L - j)) + 1)) := by
        rcases hpar with hp | hp
        · exact midModel_sibling hash leaves hjL hn (by omega) (by omega)
        · have hpos : 2 ^ (j + 1) - 1 + (2 * (n / 2 ^ (L - j)) + 1) =
              aPos L n (j + 1) := by
            unfold aPos
            omega
          rw [hpos]
          exact midModel_at_aPos hash leaves (by omega) hjL
      rw [hch1, hch2]
      exact (treeModel_parent_node hash leaves hjL hn).symm
    · rw [if_neg hq2, ht q2]
      exact midModel_lower hash leaves hq2

theorem insertSeq_nodes (hash : B32 → B32 → B32) (leaves : Nat → B32)
    {L : Nat} (hL : L ≤ 13) :
    ∀ n, n ≤ 2 ^ L → ∀ q, (insertSeq hash leaves L n).nodes q =
      treeModel hash leaves L n q := by
  intro n
  induction n with
  | zero =>
    intro _ q
    show (0 : B32) = treeModel hash leaves L 0 q
    unfold treeModel
    split
    · rw [rebuildZero_zero]
    · rfl
  | succ n ihn =>
    intro hn
    have hnlt : n < 2 ^ L := by omega
    have hone : 1 ≤ (2:Nat) ^ L := Nat.one_le_two_pow
    have hb : (2:Nat) ^ (L + 1) ≤ 16384 := by
      calc (2:Nat) ^ (L + 1) ≤ 2 ^ 14 :=
            Nat.pow_le_pow_right (by omega) (by omega)
        _ = 16384 := by norm_num
    have h2L : (2:Nat) ^ (L + 1) = 2 * 2 ^ L := by ring
    show ∀ q, ((insertSeq hash leaves L n).insert_leaf hash (leaves n) n
      L).nodes q = _
    unfold MerkleTree.insert_leaf
    rw [Nat.min_eq_left hL, if_pos (by show 2 ^ L - 1 + n < 16384; omega)]
    have hLpos : (2:Nat) ^ L - 1 + n = aPos L n L := (aPos_top L n).symm
    rw [hLpos]
    apply updChain_level hash leaves hL hnlt L (le_refl L)
    intro q2
    simp only [writeNode]
    by_cases hq2 : q2 = aPos L n L
    · rw [if_pos hq2, hq2, midModel_at_aPos hash leaves (le_refl L)
        (le_refl L)]
      rw [show aPos L n L = 2 ^ L - 1 + n from aPos_top L n,
        treeModel_at hash leaves (le_refl L) hnlt, Nat.sub_self]
      simp only [rebuildZero]
      rw [if_pos (by omega)]
    · rw [if_neg hq2, ihn (by omega) q2]
      unfold midModel
      rw [if_neg ?hno3]
      case hno3 =>
        rintro ⟨i, h1, h2, h3⟩
        have hiL : i = L := by omega
        rw [hiL] at h3
        exact hq2 h3

/-- Claim C5 (amended): for leaves inserted at successive indices
0..n-1, the root returned by get_root equals the root of a from-scratch
rebuild in which a subtree holding no inserted leaf reads as the
all-zero value at every level and every internal node above at least one
inserted leaf is merkle_hash of its two children. -/
theorem C5_root_determinism :
    ∀ (hash : B32 → B32 → B32) (leaves : Nat → B32) (L n : Nat),
      L ≤ 13 → n ≤ 2 ^ L →
      (insertSeq hash leaves L n).get_root L =
        rebuildZero hash leaves n L 0 := by
  intro hash leaves L n hL hn
  unfold MerkleTree.get_root
  rw [insertSeq_nodes hash leaves hL n hn 0]
  have h00 : treeModel hash leaves L n 0 = rebuildZero hash leaves n (L - 0) 0 := by
    have h0 := @treeModel_at hash leaves L n 0 0 (Nat.zero_le L)
      (show (0:Nat) < 2 ^ 0 by norm_num)
    simpa using h0
  rw [h00, Nat.sub_zero]

/-- Witness for C5 at depth 7 with two concrete leaves. -/
theorem C5_witness :
    (7:Nat) ≤ 13 ∧ (2:Nat) ≤ 2 ^ 7 ∧
    (insertSeq h0 (fun i => i + 3) 7 2).get_root 7 =
      rebuildZero h0 (fun i => i + 3) 2 7 0 :=
  ⟨by decide, by decide,
   C5_root_determinism h0 (fun i => i + 3) 7 2 (by decide) (by decide)⟩
